import Mathlib

/-!
Shallow embedding of the intersection-and-shading dispatch core of the
`rayn` renderer (`src/hitable.rs` and `src/camera.rs`), together with
theorems settling the specification claims.

Scalar `f32` values are modelled as rationals (`ℚ`) in the hit pipeline,
where only ordered-field structure is used, and as reals (`ℝ`) in the
camera section, where square roots appear.  Four-lane SIMD values
(`f32x4`, `WRay`, `Wec3`) are modelled as functions from `Fin 4`.
Fallible unchecked accesses are modelled with `Option`, `none` standing
for the undefined-behavior branch.
-/

/-- A 3-component vector (`crate::math::Vec3` / one lane of `Wec3`). -/
@[ext]
structure V3 (α : Type) where
  x : α
  y : α
  z : α
deriving DecidableEq, Repr

instance [Add α] : Add (V3 α) := ⟨fun a b => ⟨a.x + b.x, a.y + b.y, a.z + b.z⟩⟩

instance [Sub α] : Sub (V3 α) := ⟨fun a b => ⟨a.x - b.x, a.y - b.y, a.z - b.z⟩⟩

instance [Zero α] : Zero (V3 α) := ⟨⟨0, 0, 0⟩⟩

/-- Vector-times-scalar product. -/
def V3.smul [Mul α] (v : V3 α) (s : α) : V3 α := ⟨v.x * s, v.y * s, v.z * s⟩

/-- Dot product. -/
def V3.dot [Mul α] [Add α] (a b : V3 α) : α := a.x * b.x + a.y * b.y + a.z * b.z

/-- Cross product. -/
def V3.cross [Mul α] [Sub α] (a b : V3 α) : V3 α :=
  ⟨a.y * b.z - a.z * b.y, a.z * b.x - a.x * b.z, a.x * b.y - a.y * b.x⟩

/-- A 2-component vector (`crate::math::Vec2`). -/
@[ext]
structure V2 (α : Type) where
  x : α
  y : α
deriving DecidableEq, Repr

/-- Modelled from the spec (the `crate::ray` module is not under `src/`):
a `Ray` is an origin, a direction and a validity flag; an invalid ray is
a sentinel that must never produce a real hit. -/
@[ext]
structure Ray (α : Type) where
  origin : V3 α
  dir : V3 α
  valid : Bool
deriving DecidableEq, Repr

/-- Modelled from the spec: `Ray::new` builds a (valid) ray from an origin
and a direction. -/
def Ray.new (origin dir : V3 α) : Ray α := ⟨origin, dir, true⟩

/-- Modelled from the spec (`Ray::new_invalid` lives in the missing
`crate::ray`): a ray whose validity flag is false; its payload is
irrelevant and set to zero. -/
def Ray.new_invalid : Ray ℚ := ⟨0, 0, false⟩

/-- Four packed `f32` lanes (`crate::math::f32x4`), one rational per lane. -/
abbrev f32x4 : Type := Fin 4 → ℚ

/-- `f32x4::ONE`. -/
def f32x4.ONE : f32x4 := fun _ => 1

instance : Mul f32x4 := ⟨fun a b lane => a lane * b lane⟩

/-- Per-lane `f32::signum`, as the Rust code computes it on the values the
model can represent: `-1` for negatives and `1` otherwise (`f32::signum`
maps `+0.0` to `1.0`; the `-0.0` case has no rational counterpart). -/
def f32x4.signum (a : f32x4) : f32x4 := fun lane => if a lane < 0 then -1 else 1

/-- Modelled from the spec: `WideRay` (`WRay`) packs four rays, one per lane. -/
abbrev WRay : Type := Fin 4 → Ray ℚ

/-- Modelled from the spec: wide 3-vectors (`Wec3`) pack four `Vec3`, one
per lane. -/
abbrev Wec3 : Type := Fin 4 → V3 ℚ

instance : Add Wec3 := ⟨fun a b lane => a lane + b lane⟩

instance : HMul Wec3 f32x4 Wec3 := ⟨fun v s lane => (v lane).smul (s lane)⟩

/-- Per-lane dot product of wide vectors. -/
def Wec3.dot (a b : Wec3) : f32x4 := fun lane => (a lane).dot (b lane)

/-- Wide 3x3 matrix (`crate::math::Wat3`); carried opaquely as three wide
axis vectors. -/
structure Wat3 where
  xa : Wec3
  ya : Wec3
  za : Wec3

/-- An opaque reference into the external material table. -/
abbrev MaterialHandle : Type := ℕ

/-- `WShadingPoint` (hitable.rs): the shading payload derived from a wide hit. -/
structure WShadingPoint where
  ray : WRay
  t : f32x4
  point : Wec3
  offset_by : f32x4
  normal : Wec3
  basis : Wat3

/-- `WShadingPoint::create_rays`: a secondary ray reusing the stored lanes,
with origin offset from the stored point along the stored normal, signed by
the sign of `normal · dir`, and direction `dir`. -/
def WShadingPoint.create_rays (sp : WShadingPoint) (dir : Wec3) : WRay :=
  let origin := sp.point + sp.normal * (sp.normal.dot dir).signum * sp.offset_by
  fun lane => { sp.ray lane with origin := origin lane, dir := dir lane }

/-- `Hit` (hitable.rs): one scalar ray plus its parametric distance. -/
structure Hit where
  ray : Ray ℚ
  t : ℚ
deriving DecidableEq, Repr

/-- `WHit` (hitable.rs): a wide ray plus four distances. -/
structure WHit where
  ray : WRay
  t : f32x4

/-- `impl From<[Hit; 4]> for WHit` (hitable.rs): pack four scalar hits into
one wide hit, lane by lane. -/
def WHit.from (hits : Fin 4 → Hit) : WHit :=
  { ray := fun lane => (hits lane).ray, t := fun lane => (hits lane).t }

/-- The `Hitable` capability (hitable.rs): intersection test, occlusion
test and shading-info materialization.  `hit` takes the packet and the
`t`-range as start and end lanes, `γ` is the (opaque) camera type passed
through to `get_shading_info`. -/
structure Hitable (γ : Type) where
  hit : WRay → f32x4 → f32x4 → f32x4
  occluded : Wec3 → Wec3 → f32x4 → f32x4
  get_shading_info : WHit → Bool → γ → MaterialHandle × WShadingPoint

/-- `HitStore` (hitable.rs): one growable staging list of scalar hits per
object id; the backing arena has no observable effect and is dropped. -/
structure HitStore where
  hits : List (List Hit)
deriving Repr, DecidableEq

/-- A `HitableStore` is an ordered collection of geometry objects; the
position in the list is the object's id (hitable.rs wraps
`Vec<Box<dyn Hitable>>`). -/
abbrev HitableStore (γ : Type) : Type := List (Hitable γ)

/-- `HitStore::from_hitable_store`: one fresh empty staging list per object
of the hitable store. -/
def HitStore.from_hitable_store {γ : Type} (store : HitableStore γ) : HitStore :=
  ⟨List.replicate store.length ([] : List Hit)⟩

/-- `HitStore::add_hit` (hitable.rs): push a hit onto the staging list of
`obj_id`.  The source uses `get_unchecked_mut`; an out-of-bounds id is
undefined behavior, modelled as `none`. -/
def HitStore.add_hit (s : HitStore) (obj_id : ℕ) (hit : Hit) : Option HitStore :=
  if h : obj_id < s.hits.length then
    some ⟨s.hits.set obj_id (s.hits.get ⟨obj_id, h⟩ ++ [hit])⟩
  else none

/-- `HitStore::reset` (hitable.rs): clear every staging list in place. -/
def HitStore.reset (s : HitStore) : HitStore :=
  ⟨s.hits.map (fun _ => ([] : List Hit))⟩

/-- The sentinel hit pushed by the padding loop of `process_hits`:
`Hit { ray: Ray::new_invalid(), t: 0.0 }`. -/
def invalidHit : Hit := { ray := Ray.new_invalid, t := 0 }

/-- The padding loop of `process_hits`: push invalid sentinel hits until
the list length is a multiple of four. -/
def padHits (l : List Hit) : List Hit :=
  if l.length % 4 = 0 then l else padHits (l ++ [invalidHit])
termination_by (4 - l.length % 4) % 4
decreasing_by
  simp only [List.length_append, List.length_cons, List.length_nil]
  omega

/-- `chunks_exact(4)` over a hit list: the consecutive groups of four, any
shorter remainder dropped. -/
def chunks4 : List Hit → List (Fin 4 → Hit)
  | a :: b :: c :: d :: rest => ![a, b, c, d] :: chunks4 rest
  | _ => []

/-- The four lanes of a group, in order. -/
def chunkLanes (c : Fin 4 → Hit) : List Hit := [c 0, c 1, c 2, c 3]

/-- The shading entries one object contributes in `process_hits`: one
`get_shading_info` result per group of four staged hits. -/
def shadeList {γ : Type} (h : Hitable γ) (primary : Bool) (camera : γ) (l : List Hit) :
    List (MaterialHandle × WShadingPoint) :=
  (chunks4 l).map (fun c => h.get_shading_info (WHit.from c) primary camera)

/-- The dispatch loop of `process_hits`: for every `(obj_id, staged)` pair,
look the object up (unchecked in the source: out of bounds is undefined
behavior, modelled as `none`) and append one shading entry per group of
four staged hits. -/
def dispatchLoop {γ : Type} (hitables : HitableStore γ) (primary : Bool) (camera : γ) :
    List (ℕ × List Hit) → List (MaterialHandle × WShadingPoint) →
      Option (List (MaterialHandle × WShadingPoint))
  | [], out => some out
  | (obj_id, staged) :: rest, out =>
    match hitables.get? obj_id with
    | none => none
    | some h =>
      dispatchLoop hitables primary camera rest (out ++ shadeList h primary camera staged)

/-- `HitStore::process_hits` (hitable.rs): pad every staging list to a
multiple of four with invalid sentinels (this mutates the staging lists;
the summed `total_hits` only sizes a buffer reservation and has no
observable effect), then dispatch each group of four to the object's
`get_shading_info`, appending the results to the output buffer.  Returns
the mutated store and the extended output buffer. -/
def HitStore.process_hits {γ : Type} (s : HitStore) (hitables : HitableStore γ)
    (wintersections : List (MaterialHandle × WShadingPoint)) (primary : Bool) (camera : γ) :
    Option (HitStore × List (MaterialHandle × WShadingPoint)) :=
  let padded := s.hits.map padHits
  match dispatchLoop hitables primary camera padded.enum wintersections with
  | none => none
  | some out => some (⟨padded⟩, out)

/-- `std::usize::MAX`, the no-hit sentinel id of `add_hits`. -/
def USIZE_MAX : ℕ := 2 ^ 64 - 1

/-- One step of the `add_hits` fold (hitable.rs): per lane, a candidate `t`
replaces the current best only under a strict less-than comparison, in
which case the lane's winning id becomes the candidate's id. -/
def laneMerge (acc : (Fin 4 → ℕ) × f32x4) (obj_id : ℕ) (t : f32x4) : (Fin 4 → ℕ) × f32x4 :=
  (fun lane => if t lane < acc.2 lane then obj_id else acc.1 lane,
   fun lane => if t lane < acc.2 lane then t lane else acc.2 lane)

/-- The range of parametric distances handed to `Hitable::hit`
(`Range<f32x4>`; `stop` is Rust's `end`, a Lean keyword). -/
structure TRange where
  start : f32x4
  stop : f32x4

/-- The fold of `HitableStore::add_hits`: over the enumerated collection,
track per lane the minimum `t` seen so far and the id that produced it,
handing each object the range shrunk to the current per-lane minimum.
Initial state: all ids `usize::MAX`, all distances `t_ranges.end`. -/
def addHitsFold {γ : Type} (store : HitableStore γ) (ray : WRay) (t_ranges : TRange) :
    (Fin 4 → ℕ) × f32x4 :=
  store.enum.foldl
    (fun acc p => laneMerge acc p.1 (p.2.hit ray t_ranges.start acc.2))
    (fun _ => USIZE_MAX, t_ranges.stop)

/-- The recording loop of `add_hits`: for each lane in order, if the
winning id is not the `usize::MAX` sentinel and the lane's ray is valid,
push `Hit { ray: lane ray, t: lane distance }` onto that object's staging
list. -/
def recordLoop (ids : Fin 4 → ℕ) (rays : Fin 4 → Ray ℚ) (dists : f32x4) :
    List (Fin 4) → HitStore → Option HitStore
  | [], hs => some hs
  | lane :: rest, hs =>
    if ids lane < USIZE_MAX ∧ (rays lane).valid then
      match hs.add_hit (ids lane) { ray := rays lane, t := dists lane } with
      | none => none
      | some hs' => recordLoop ids rays dists rest hs'
    else recordLoop ids rays dists rest hs

/-- `HitableStore::add_hits` (hitable.rs): fold the nearest hit per lane
across all objects, then record one scalar hit per winning valid lane. -/
def HitableStore.add_hits {γ : Type} (store : HitableStore γ) (ray : WRay)
    (t_ranges : TRange) (hit_store : HitStore) : Option HitStore :=
  let folded := addHitsFold store ray t_ranges
  recordLoop folded.1 ray folded.2 (List.finRange 4) hit_store

/-- `HitableStore::test_occluded` (hitable.rs): multiplicative fold of every
object's `occluded` starting from all ones. -/
def HitableStore.test_occluded {γ : Type} (store : HitableStore γ)
    (start stop : Wec3) (time : f32x4) : f32x4 :=
  store.foldl (fun acc hitable => acc * hitable.occluded start stop time) f32x4.ONE

/-! ### Camera models (camera.rs), over the reals -/

/-- Length of a real vector (`Vec3::magnitude`, external math). -/
noncomputable def magnitude (v : V3 ℝ) : ℝ := Real.sqrt (v.dot v)

/-- `Vec3::normalized` (external math): the vector scaled by the
reciprocal of its length. -/
noncomputable def normalized (v : V3 ℝ) : V3 ℝ := v.smul (1 / magnitude v)

/-- A sampled rigid transform (`crate::math::Transform`): a position plus
an orientation, the latter modelled as the map it applies to vectors. -/
structure Transform where
  position : V3 ℝ
  orientation : V3 ℝ → V3 ℝ

/-- `PinholeCamera` (camera.rs).  Modelled from the spec: a
`Sequenced<Transform>` exposes `sample_at(time) -> value`, modelled as a
plain function of time. -/
structure PinholeCamera where
  lower_left : V3 ℝ
  full_size : V3 ℝ
  transform_sequence : ℝ → Transform

/-- `PinholeCamera::new` (camera.rs). -/
def PinholeCamera.new (aspect : ℝ) (transform_sequence : ℝ → Transform) : PinholeCamera :=
  { lower_left := ⟨-aspect * 0.5, -0.5, -1⟩
    full_size := ⟨aspect, 1, 0⟩
    transform_sequence := transform_sequence }

/-- Modelled from the spec: the screen point `lower_left + full_size * uv`,
scaling the x/y extents by `uv`; the z extent of `full_size` is zero. -/
def screenPoint (c : PinholeCamera) (uv : V2 ℝ) : V3 ℝ :=
  ⟨c.lower_left.x + c.full_size.x * uv.x, c.lower_left.y + c.full_size.y * uv.y,
    c.lower_left.z⟩

/-- `PinholeCamera::get_ray` (camera.rs): sample the transform, aim through
the screen point; the rng is not consumed. -/
noncomputable def PinholeCamera.get_ray (c : PinholeCamera) (uv : V2 ℝ) (time : ℝ) : Ray ℝ :=
  let transform := c.transform_sequence time
  Ray.new transform.position (transform.orientation (normalized (screenPoint c uv)))

/-- `ThinLensCamera` (camera.rs); the five time-varying quantities are
`Sequenced` values, modelled from the spec as functions of time.  The
`at` sequence is named `look_at` (`at` is a Lean keyword). -/
structure ThinLensCamera where
  half_size : V2 ℝ
  aperture : ℝ → ℝ
  origin : ℝ → V3 ℝ
  look_at : ℝ → V3 ℝ
  up : ℝ → V3 ℝ
  focus : ℝ → V3 ℝ

/-- `ThinLensCamera::new` (camera.rs): half height from `tan(vfov/2)`
(degrees), half width scaled by the aspect ratio. -/
noncomputable def ThinLensCamera.new (aspect vfov : ℝ) (aperture : ℝ → ℝ)
    (origin look_at up focus : ℝ → V3 ℝ) : ThinLensCamera :=
  let theta := vfov * Real.pi / 180
  let half_height := Real.tan (theta / 2)
  let half_width := aspect * half_height
  { half_size := ⟨half_width, half_height⟩, aperture := aperture, origin := origin,
    look_at := look_at, up := up, focus := focus }

/-- `ThinLensCamera::get_ray` (camera.rs).  The uniformly random point of
the unit disk drawn from the rng (`Vec2::rand_in_unit_disk`, external
math) is passed in as `disk_sample`. -/
noncomputable def ThinLensCamera.get_ray (c : ThinLensCamera) (uv : V2 ℝ) (time : ℝ)
    (disk_sample : V2 ℝ) : Ray ℝ :=
  let origin := c.origin time
  let look_at := c.look_at time
  let up := c.up time
  let focus := c.focus time
  let focus_dist := magnitude (focus - origin)
  let aperture := c.aperture time
  let basis_w := normalized (origin - look_at)
  let basis_u := normalized (up.cross basis_w)
  let basis_v := basis_w.cross basis_u
  let lower_left := origin - (basis_u.smul c.half_size.x).smul focus_dist
      - (basis_v.smul c.half_size.y).smul focus_dist - basis_w.smul focus_dist
  let horiz := (((basis_u.smul c.half_size.x).smul focus_dist).smul 2).smul uv.x
  let verti := (((basis_v.smul c.half_size.y).smul focus_dist).smul 2).smul uv.y
  let rd : V2 ℝ := ⟨disk_sample.x * aperture, disk_sample.y * aperture⟩
  let offset := basis_u.smul rd.x + basis_v.smul rd.y
  let origin2 := origin + offset
  Ray.new origin2 (normalized (lower_left + horiz + verti - origin2))

/-- The orthonormal view basis the thin-lens camera derives at a given
time: `w` from origin to look-at reversed, `u` from `up × w`, `v = w × u`. -/
noncomputable def viewBasis (c : ThinLensCamera) (time : ℝ) : V3 ℝ × V3 ℝ × V3 ℝ :=
  let basis_w := normalized (c.origin time - c.look_at time)
  let basis_u := normalized ((c.up time).cross basis_w)
  (basis_u, basis_w.cross basis_u, basis_w)

/-- The linear map sending the standard basis to `(u, v, w)`: the
orientation that turns camera-space vectors into world-space ones, used to
state the equivalent pinhole configuration. -/
def basisMap (u v w : V3 ℝ) (q : V3 ℝ) : V3 ℝ := u.smul q.x + v.smul q.y + w.smul q.z

/-- The pinhole camera equivalent to a thin-lens camera of aspect ratio
`aspect`: same per-time position, orientation given by the thin lens's
view basis. -/
noncomputable def equivalentPinhole (c : ThinLensCamera) (aspect : ℝ) : PinholeCamera :=
  PinholeCamera.new aspect (fun time =>
    { position := c.origin time
      orientation := fun q =>
        basisMap (viewBasis c time).1 (viewBasis c time).2.1 (viewBasis c time).2.2 q })

/-! ### Predicates and concrete objects used by witnesses -/

/-- Staging lists populated only by `add_hits` since construction or the
last `reset`: every staged hit carries a valid ray. -/
def validStore (s : HitStore) : Prop :=
  ∀ l ∈ s.hits, ∀ h ∈ l, h.ray.valid = true

/-- Modelled from the spec's words in C8: the mathematical sign function,
zero at zero. -/
def claimSign (q : ℚ) : ℚ := if q < 0 then -1 else if q = 0 then 0 else 1

/-- An all-zero wide basis, for concrete shading points. -/
def zeroWat3 : Wat3 := ⟨fun _ => 0, fun _ => 0, fun _ => 0⟩

/-- A concrete shading point with zero payload. -/
def zeroSP : WShadingPoint :=
  { ray := fun _ => Ray.new 0 0, t := fun _ => 0, point := fun _ => 0,
    offset_by := fun _ => 0, normal := fun _ => 0, basis := zeroWat3 }

/-- A geometry object reporting a constant intersection distance in every
lane. -/
def constHitObj (q : ℚ) : Hitable Unit :=
  { hit := fun _ _ _ _ => q, occluded := fun _ _ _ _ => 1,
    get_shading_info := fun _ _ _ => (0, zeroSP) }

/-- A geometry object that never intersects: it reports the range end
(the no-intersection sentinel is `≥` the range end). -/
def missObj : Hitable Unit :=
  { hit := fun _ _ stop => stop, occluded := fun _ _ _ _ => 1,
    get_shading_info := fun _ _ _ => (0, zeroSP) }

/-- A fully blocking object: `occluded` is zero in every lane. -/
def occZeroObj : Hitable Unit :=
  { hit := fun _ _ stop => stop, occluded := fun _ _ _ _ => 0,
    get_shading_info := fun _ _ _ => (0, zeroSP) }

/-- A concrete shading point whose normal is the z axis in every lane. -/
def spC : WShadingPoint :=
  { ray := fun _ => Ray.new 0 0, t := fun _ => 0, point := fun _ => 0,
    offset_by := fun _ => 1, normal := fun _ => ⟨0, 0, 1⟩, basis := zeroWat3 }

/-- A concrete wide direction tangent to `spC`'s normal. -/
def dirC : Wec3 := fun _ => ⟨1, 0, 0⟩

/-- A concrete thin-lens camera of aspect ratio 1 whose aperture sequence
is constantly zero, looking down the negative z axis. -/
def camW : ThinLensCamera :=
  { half_size := ⟨1 * 0.5, 0.5⟩, aperture := fun _ => 0, origin := fun _ => 0,
    look_at := fun _ => ⟨0, 0, -1⟩, up := fun _ => ⟨0, 1, 0⟩, focus := fun _ => ⟨0, 0, -1⟩ }

/-! ### Padding and chunking lemmas -/

lemma padHits_eq (l : List Hit) :
    padHits l = l ++ List.replicate ((4 - l.length % 4) % 4) invalidHit := by
  induction l using padHits.induct with
  | case1 l h =>
    have h0 : (4 - l.length % 4) % 4 = 0 := by omega
    rw [padHits]
    simp [h, h0]
  | case2 l h ih =>
    rw [padHits, if_neg h, ih]
    have h4 : (4 - (l ++ [invalidHit]).length % 4) % 4 + 1 = (4 - l.length % 4) % 4 := by
      simp only [List.length_append, List.length_cons, List.length_nil]
      omega
    rw [List.append_assoc, List.singleton_append, ← List.replicate_succ, h4]

lemma padHits_length (l : List Hit) : (padHits l).length = 4 * ((l.length + 3) / 4) := by
  rw [padHits_eq]
  simp only [List.length_append, List.length_replicate]
  omega

lemma padHits_length_mod (l : List Hit) : (padHits l).length % 4 = 0 := by
  rw [padHits_length]
  omega

lemma padHits_of_mod (l : List Hit) (h : l.length % 4 = 0) : padHits l = l := by
  rw [padHits_eq]
  have h0 : (4 - l.length % 4) % 4 = 0 := by omega
  simp [h0]

lemma padHits_idem (l : List Hit) : padHits (padHits l) = padHits l :=
  padHits_of_mod _ (padHits_length_mod l)

lemma padHits_nil : padHits [] = [] := padHits_of_mod [] rfl

lemma chunks4_flatten (l : List Hit) (h : l.length % 4 = 0) :
    ((chunks4 l).map chunkLanes).flatten = l := by
  induction l using chunks4.induct with
  | case1 a b c d rest ih =>
    simp only [List.length_cons] at h
    simp only [chunks4, List.map_cons, List.flatten_cons, ih (by omega)]
    rfl
  | case2 l hne =>
    rcases l with _ | ⟨a, _ | ⟨b, _ | ⟨c, _ | ⟨d, rest⟩⟩⟩⟩
    · rfl
    · simp at h
    · simp at h
    · simp at h
    · exact absurd rfl (hne a b c d rest)

lemma chunks4_length (l : List Hit) (h : l.length % 4 = 0) :
    (chunks4 l).length = l.length / 4 := by
  induction l using chunks4.induct with
  | case1 a b c d rest ih =>
    simp only [List.length_cons] at h
    simp only [chunks4, List.length_cons, ih (by omega)]
    omega
  | case2 l hne =>
    rcases l with _ | ⟨a, _ | ⟨b, _ | ⟨c, _ | ⟨d, rest⟩⟩⟩⟩
    · rfl
    · simp at h
    · simp at h
    · simp at h
    · exact absurd rfl (hne a b c d rest)

lemma shadeList_padHits_length {γ : Type} (h : Hitable γ) (primary : Bool) (camera : γ)
    (l : List Hit) :
    (shadeList h primary camera (padHits l)).length = (l.length + 3) / 4 := by
  rw [shadeList, List.length_map, chunks4_length _ (padHits_length_mod l), padHits_length]
  omega

/-! ### The `process_hits` closed form -/

lemma dispatchLoop_eq {γ : Type} (hitables : HitableStore γ) (primary : Bool) (camera : γ)
    (ls : List (List Hit)) :
    ∀ (k : ℕ) (out : List (MaterialHandle × WShadingPoint)),
      k + ls.length ≤ hitables.length →
      dispatchLoop hitables primary camera (ls.enumFrom k) out =
        some (out ++
          (List.zipWith (fun h l => shadeList h primary camera l) (hitables.drop k) ls).flatten) := by
  induction ls with
  | nil => intro k out _; simp [dispatchLoop]
  | cons l ls ih =>
    intro k out hk
    have hklt : k < hitables.length := by
      simp only [List.length_cons] at hk
      omega
    rw [List.enumFrom]
    show dispatchLoop hitables primary camera ((k, l) :: ls.enumFrom (k + 1)) out = _
    rw [dispatchLoop]
    rw [List.get?_eq_get hklt]
    show dispatchLoop hitables primary camera (ls.enumFrom (k + 1))
        (out ++ shadeList (hitables.get ⟨k, hklt⟩) primary camera l) = _
    rw [ih (k + 1) _ (by simp only [List.length_cons] at hk; omega)]
    rw [List.drop_eq_getElem_cons hklt, List.zipWith_cons_cons, List.flatten_cons,
      List.append_assoc, List.get_eq_getElem]

lemma process_hits_eq {γ : Type} (s : HitStore) (hitables : HitableStore γ)
    (out : List (MaterialHandle × WShadingPoint)) (primary : Bool) (camera : γ)
    (hlen : s.hits.length ≤ hitables.length) :
    s.process_hits hitables out primary camera =
      some (⟨s.hits.map padHits⟩,
        out ++
          (List.zipWith (fun h l => shadeList h primary camera (padHits l))
            hitables s.hits).flatten) := by
  rw [HitStore.process_hits]
  have he : (s.hits.map padHits).enum = (s.hits.map padHits).enumFrom 0 := rfl
  rw [he, dispatchLoop_eq hitables primary camera (s.hits.map padHits) 0 out
    (by simpa using hlen)]
  rw [List.drop_zero, List.zipWith_map_right]

/-! ### C1: padding, grouping and dispatch in `process_hits` -/

/-- C1: for every object's staging list, `process_hits` first pads the list
with invalid-ray sentinel hits up to the next multiple of four, then
dispatches exactly `⌈staged/4⌉` groups of four to that object's
`get_shading_info`, appending one `(MaterialHandle, WShadingPoint)` entry
per group to the output buffer; the dispatched groups' lanes, in order,
are exactly the staged hits followed by the padding, so every staged hit
is dispatched exactly once. -/
theorem process_hits_batches {γ : Type} (hitables : HitableStore γ) (s : HitStore)
    (out : List (MaterialHandle × WShadingPoint)) (primary : Bool) (camera : γ)
    (hlen : s.hits.length = hitables.length) :
    s.process_hits hitables out primary camera =
      some (⟨s.hits.map padHits⟩,
        out ++ (List.zipWith (fun h l => shadeList h primary camera (padHits l))
          hitables s.hits).flatten) ∧
    (∀ l ∈ s.hits,
      padHits l = l ++ List.replicate ((4 - l.length % 4) % 4) invalidHit ∧
      (∀ p ∈ List.replicate ((4 - l.length % 4) % 4) invalidHit, p.ray.valid = false) ∧
      (padHits l).length % 4 = 0) ∧
    (∀ (h : Hitable γ) (l : List Hit),
      (shadeList h primary camera (padHits l)).length = (l.length + 3) / 4) ∧
    (∀ l : List Hit, ((chunks4 (padHits l)).map chunkLanes).flatten = padHits l) := by
  refine ⟨process_hits_eq s hitables out primary camera (le_of_eq hlen), ?_, ?_, ?_⟩
  · intro l _
    refine ⟨padHits_eq l, ?_, padHits_length_mod l⟩
    intro p hp
    rw [List.eq_of_mem_replicate hp]
    rfl
  · exact fun h l => shadeList_padHits_length h primary camera l
  · exact fun l => chunks4_flatten _ (padHits_length_mod l)

/-- A concrete instance of `process_hits_batches`: one object, one staged
hit. -/
theorem process_hits_batches_witness :
    HitStore.process_hits ⟨[[{ ray := Ray.new 0 0, t := 2 }]]⟩ [missObj] [] true () =
      some (⟨[[{ ray := Ray.new 0 0, t := 2 }]].map padHits⟩,
        [] ++ (List.zipWith (fun h l => shadeList h true () (padHits l))
          [missObj] [[{ ray := Ray.new 0 0, t := 2 }]]).flatten) ∧
    (∀ l ∈ [[{ ray := Ray.new 0 0, t := 2 }]],
      padHits l = l ++ List.replicate ((4 - l.length % 4) % 4) invalidHit ∧
      (∀ p ∈ List.replicate ((4 - l.length % 4) % 4) invalidHit, p.ray.valid = false) ∧
      (padHits l).length % 4 = 0) ∧
    (∀ (h : Hitable Unit) (l : List Hit),
      (shadeList h true () (padHits l)).length = (l.length + 3) / 4) ∧
    (∀ l : List Hit, ((chunks4 (padHits l)).map chunkLanes).flatten = padHits l) :=
  process_hits_batches [missObj] ⟨[[{ ray := Ray.new 0 0, t := 2 }]]⟩ [] true () rfl

/-! ### C2: strict-less replacement and nearest-hit tie-break -/

/-- C2: in the `add_hits` fold, a later candidate replaces the per-lane
best only under a strict less-than comparison on `t` (first conjunct,
stating the update rule of one fold step); consequently, when a second
object reports for a lane exactly the `t` the first object already
reported, the earlier object wins that lane (second conjunct, for a
two-object collection). -/
theorem add_hits_tie_break {γ : Type} (A B : Hitable γ) (ray : WRay) (tr : TRange)
    (lane : Fin 4)
    (hA : A.hit ray tr.start tr.stop lane < tr.stop lane)
    (hB : ∀ e : f32x4, B.hit ray tr.start e lane = A.hit ray tr.start tr.stop lane) :
    (∀ (acc : (Fin 4 → ℕ) × f32x4) (obj_id : ℕ) (t : f32x4) (lane' : Fin 4),
      (laneMerge acc obj_id t).1 lane' =
        (if t lane' < acc.2 lane' then obj_id else acc.1 lane') ∧
      (laneMerge acc obj_id t).2 lane' =
        (if t lane' < acc.2 lane' then t lane' else acc.2 lane')) ∧
    (addHitsFold [A, B] ray tr).1 lane = 0 := by
  constructor
  · exact fun acc obj_id t lane' => ⟨rfl, rfl⟩
  · have he : ([A, B] : HitableStore γ).enum = [(0, A), (1, B)] := rfl
    rw [addHitsFold, he]
    simp only [List.foldl_cons, List.foldl_nil]
    rw [laneMerge]
    simp only
    rw [hB]
    simp [laneMerge, hA, lt_irrefl]

/-- A concrete instance of `add_hits_tie_break`: two objects both reporting
`t = 5` on the range `0..10`; lane 0 is won by object 0. -/
theorem add_hits_tie_break_witness :
    (∀ (acc : (Fin 4 → ℕ) × f32x4) (obj_id : ℕ) (t : f32x4) (lane' : Fin 4),
      (laneMerge acc obj_id t).1 lane' =
        (if t lane' < acc.2 lane' then obj_id else acc.1 lane') ∧
      (laneMerge acc obj_id t).2 lane' =
        (if t lane' < acc.2 lane' then t lane' else acc.2 lane')) ∧
    (addHitsFold [constHitObj 5, constHitObj 5] (fun _ => Ray.new 0 0)
      ⟨fun _ => 0, fun _ => 10⟩).1 0 = 0 :=
  add_hits_tie_break (constHitObj 5) (constHitObj 5) (fun _ => Ray.new 0 0)
    ⟨fun _ => 0, fun _ => 10⟩ 0 (by norm_num [constHitObj]) (fun _ => rfl)

/-! ### C3: invalid-ray lanes contribute nothing to the staging lists -/

lemma getD_set_eq (l : List (List Hit)) (i : ℕ) (x : List Hit) (h : i < l.length) :
    (l.set i x).getD i [] = x := by
  rw [List.getD_eq_getElem?_getD, List.getElem?_set_self h]
  rfl

lemma getD_set_ne (l : List (List Hit)) (i : ℕ) (x : List Hit) (j : ℕ) (h : j ≠ i) :
    (l.set i x).getD j [] = l.getD j [] := by
  rw [List.getD_eq_getElem?_getD, List.getElem?_set_ne (Ne.symm h),
    ← List.getD_eq_getElem?_getD]

lemma getD_of_lt (l : List (List Hit)) (i : ℕ) (h : i < l.length) :
    l.getD i [] = l.get ⟨i, h⟩ := by
  rw [List.getD_eq_getElem?_getD, List.getElem?_eq_getElem h]
  rfl

lemma mem_getD_add_hit (s : HitStore) (j : ℕ) (hit : Hit) (s' : HitStore)
    (hsome : s.add_hit j hit = some s') (i : ℕ) (ht : Hit)
    (hmem : ht ∈ s'.hits.getD i []) : ht ∈ s.hits.getD i [] ∨ ht = hit := by
  rw [HitStore.add_hit] at hsome
  split at hsome
  · rename_i hj
    obtain rfl : s' = ⟨s.hits.set j (s.hits.get ⟨j, hj⟩ ++ [hit])⟩ :=
      (Option.some.injEq _ _ ▸ hsome).symm
    by_cases hij : i = j
    · subst hij
      rw [getD_set_eq _ _ _ hj] at hmem
      rcases List.mem_append.mp hmem with hl | hr
      · left
        rw [getD_of_lt _ _ hj]
        exact hl
      · right
        simpa using hr
    · left
      rw [getD_set_ne _ _ _ _ hij] at hmem
      exact hmem
  · exact absurd hsome (by simp)

lemma recordLoop_mem (ids : Fin 4 → ℕ) (rays : Fin 4 → Ray ℚ) (dists : f32x4) :
    ∀ (lanes : List (Fin 4)) (hs hs' : HitStore),
      recordLoop ids rays dists lanes hs = some hs' →
      ∀ (i : ℕ) (ht : Hit), ht ∈ hs'.hits.getD i [] →
        ht ∈ hs.hits.getD i [] ∨
          ∃ lane : Fin 4,
            ht = { ray := rays lane, t := dists lane } ∧ (rays lane).valid = true := by
  intro lanes
  induction lanes with
  | nil =>
    intro hs hs' hrec i ht hmem
    rw [recordLoop] at hrec
    obtain rfl : hs = hs' := by simpa using hrec
    exact Or.inl hmem
  | cons lane rest ih =>
    intro hs hs' hrec i ht hmem
    rw [recordLoop] at hrec
    split at hrec
    · rename_i hcond
      rcases hadd : hs.add_hit (ids lane) { ray := rays lane, t := dists lane } with _ | hs₁
      · rw [hadd] at hrec
        exact absurd hrec (by simp)
      · rw [hadd] at hrec
        rcases ih hs₁ hs' hrec i ht hmem with hin | hnew
        · rcases mem_getD_add_hit hs (ids lane) _ hs₁ hadd i ht hin with hold | heq
          · exact Or.inl hold
          · exact Or.inr ⟨lane, heq, hcond.2⟩
        · exact Or.inr hnew
    · exact ih hs hs' hrec i ht hmem

/-- C3: for every ray packet, `t`-range, store state and object behavior,
`add_hits` records no hit for a lane whose ray is invalid: any hit present
in the staging lists afterwards was either already staged or is one of the
packet's lanes whose ray is valid. -/
theorem add_hits_invalid_inert {γ : Type} (store : HitableStore γ) (ray : WRay)
    (tr : TRange) (hs hs' : HitStore)
    (h : store.add_hits ray tr hs = some hs') (i : ℕ) (ht : Hit)
    (hmem : ht ∈ hs'.hits.getD i []) :
    ht ∈ hs.hits.getD i [] ∨
      (∃ lane : Fin 4, ht.ray = ray lane ∧ (ray lane).valid = true) := by
  rw [HitableStore.add_hits] at h
  rcases recordLoop_mem _ _ _ _ _ _ h i ht hmem with hold | ⟨lane, heq, hval⟩
  · exact Or.inl hold
  · exact Or.inr ⟨lane, by rw [heq], hval⟩

/-- A concrete instance of `add_hits_invalid_inert`: a never-intersecting
object leaves the previously staged hit alone. -/
theorem add_hits_invalid_inert_witness :
    { ray := Ray.new 0 0, t := 3 } ∈
        (HitStore.mk [[{ ray := Ray.new 0 0, t := 3 }]]).hits.getD 0 [] ∨
      (∃ lane : Fin 4,
        ({ ray := Ray.new 0 0, t := 3 } : Hit).ray = (fun _ => Ray.new 0 0) lane ∧
        ((fun (_ : Fin 4) => Ray.new (0 : V3 ℚ) 0) lane).valid = true) :=
  add_hits_invalid_inert [missObj] (fun _ => Ray.new 0 0) ⟨fun _ => 0, fun _ => 10⟩
    ⟨[[{ ray := Ray.new 0 0, t := 3 }]]⟩ ⟨[[{ ray := Ray.new 0 0, t := 3 }]]⟩
    (by decide) 0 { ray := Ray.new 0 0, t := 3 } (by simp)

/-! ### C4: occlusion fold -/

lemma test_occluded_foldl_lane {γ : Type} (start stop : Wec3) (time : f32x4) (lane : Fin 4) :
    ∀ (store : HitableStore γ) (acc : f32x4),
      (store.foldl (fun acc hitable => acc * hitable.occluded start stop time) acc) lane =
        acc lane * (store.map (fun h => h.occluded start stop time lane)).prod := by
  intro store
  induction store with
  | nil => intro acc; simp
  | cons h t ih =>
    intro acc
    rw [List.foldl_cons, ih, List.map_cons, List.prod_cons]
    show acc lane * h.occluded start stop time lane * _ = _
    ring

lemma test_occluded_lane {γ : Type} (store : HitableStore γ) (start stop : Wec3)
    (time : f32x4) (lane : Fin 4) :
    store.test_occluded start stop time lane =
      (store.map (fun h => h.occluded start stop time lane)).prod := by
  rw [HitableStore.test_occluded, test_occluded_foldl_lane]
  show 1 * _ = _
  rw [one_mul]

/-- C4: `test_occluded` on an empty collection returns all ones (the
multiplicative fold is vacuous), and whenever the objects all report
per-lane occlusion in `[0, 1]` and some member reports `0` in a lane, the
folded result is `0` in that lane, wherever that member sits in the
collection. -/
theorem test_occluded_zero_lane {γ : Type} (store : HitableStore γ) (start stop : Wec3)
    (time : f32x4) (lane : Fin 4) (X : Hitable γ)
    (hrange : ∀ h ∈ store, ∀ lane' : Fin 4,
      0 ≤ h.occluded start stop time lane' ∧ h.occluded start stop time lane' ≤ 1)
    (hmem : X ∈ store) (hzero : X.occluded start stop time lane = 0) :
    HitableStore.test_occluded ([] : HitableStore γ) start stop time = f32x4.ONE ∧
    store.test_occluded start stop time lane = 0 := by
  refine ⟨rfl, ?_⟩
  rw [test_occluded_lane]
  exact List.prod_eq_zero (by
    rw [← hzero]
    exact List.mem_map_of_mem (fun h => h.occluded start stop time lane) hmem)

/-- A concrete instance of `test_occluded_zero_lane`: a single fully
blocking object zeroes lane 0. -/
theorem test_occluded_zero_lane_witness :
    HitableStore.test_occluded ([] : HitableStore Unit) (fun _ => 0) (fun _ => 0)
        (fun _ => 0) = f32x4.ONE ∧
    HitableStore.test_occluded [occZeroObj] (fun _ => 0) (fun _ => 0) (fun _ => 0) 0 = 0 :=
  test_occluded_zero_lane [occZeroObj] (fun _ => 0) (fun _ => 0) (fun _ => 0) 0 occZeroObj
    (by
      intro h hm lane'
      rw [List.mem_singleton] at hm
      subst hm
      norm_num [occZeroObj])
    (List.mem_singleton.mpr rfl) rfl

/-! ### C5: the unchecked accesses stay in bounds -/

lemma fst_lt_of_mem_enumFrom {α : Type} :
    ∀ (l : List α) (k : ℕ) (p : ℕ × α), p ∈ l.enumFrom k → p.1 < k + l.length := by
  intro l
  induction l with
  | nil => intro k p hp; simp [List.enumFrom] at hp
  | cons a t ih =>
    intro k p hp
    rw [List.enumFrom, List.mem_cons] at hp
    rcases hp with rfl | hp
    · simp
    · have := ih (k + 1) p hp
      simp only [List.length_cons]
      omega

lemma foldl_laneMerge_ids {γ : Type} (ray : WRay) (ts : f32x4) (n : ℕ) :
    ∀ (lst : List (ℕ × Hitable γ)) (acc : (Fin 4 → ℕ) × f32x4),
      (∀ p ∈ lst, p.1 < n) →
      (∀ lane, acc.1 lane = USIZE_MAX ∨ acc.1 lane < n) →
      ∀ lane,
        (lst.foldl (fun acc p => laneMerge acc p.1 (p.2.hit ray ts acc.2)) acc).1 lane =
            USIZE_MAX ∨
          (lst.foldl (fun acc p => laneMerge acc p.1 (p.2.hit ray ts acc.2)) acc).1 lane < n := by
  intro lst
  induction lst with
  | nil => intro acc _ hacc lane; exact hacc lane
  | cons p rest ih =>
    intro acc hlst hacc lane
    rw [List.foldl_cons]
    refine ih _ (fun q hq => hlst q (List.mem_cons_of_mem p hq)) ?_ lane
    intro lane'
    show (if _ then p.1 else acc.1 lane') = USIZE_MAX ∨ (if _ then p.1 else acc.1 lane') < n
    split
    · exact Or.inr (hlst p (List.mem_cons_self p rest))
    · exact hacc lane'

lemma addHitsFold_ids {γ : Type} (store : HitableStore γ) (ray : WRay) (tr : TRange)
    (lane : Fin 4) :
    (addHitsFold store ray tr).1 lane = USIZE_MAX ∨
      (addHitsFold store ray tr).1 lane < store.length := by
  rw [addHitsFold]
  refine foldl_laneMerge_ids ray tr.start store.length store.enum _ ?_ (fun _ => Or.inl rfl) lane
  intro p hp
  have := fst_lt_of_mem_enumFrom store 0 p hp
  omega

lemma recordLoop_isSome (ids : Fin 4 → ℕ) (rays : Fin 4 → Ray ℚ) (dists : f32x4) :
    ∀ (lanes : List (Fin 4)) (hs : HitStore),
      (∀ lane, ids lane < hs.hits.length ∨ ids lane = USIZE_MAX) →
      ∃ hs', recordLoop ids rays dists lanes hs = some hs' ∧
        hs'.hits.length = hs.hits.length := by
  intro lanes
  induction lanes with
  | nil => intro hs _; exact ⟨hs, rfl, rfl⟩
  | cons lane rest ih =>
    intro hs hids
    rw [recordLoop]
    split
    · rename_i hcond
      have hlt : ids lane < hs.hits.length := by
        rcases hids lane with h | h
        · exact h
        · exact absurd (h ▸ hcond.1) (lt_irrefl _)
      rw [HitStore.add_hit, dif_pos hlt]
      have hlen : (hs.hits.set (ids lane) (hs.hits.get ⟨ids lane, hlt⟩ ++
          [{ ray := rays lane, t := dists lane }])).length = hs.hits.length :=
        List.length_set _ _ _
      obtain ⟨hs', hrec, hl⟩ := ih ⟨hs.hits.set (ids lane) _⟩ (by
        intro lane'
        rcases hids lane' with h | h
        · exact Or.inl (by simpa [hlen] using h)
        · exact Or.inr h)
      exact ⟨hs', hrec, by rw [hl]; exact hlen⟩
    · exact ih hs hids

/-- C5: with a `HitStore` sized for the same object count as the
`HitableStore` (as `from_hitable_store` guarantees — first conjunct), every
winning id of the `add_hits` fold is either the `usize::MAX` no-hit
sentinel (filtered before staging) or strictly below the object count, so
`add_hits` never reaches its undefined-behavior branch; and every object id
`process_hits` looks up is an index of a staging list, hence below the
object count, so its unchecked lookup also stays in bounds. -/
theorem unchecked_accesses_in_bounds {γ : Type} (store : HitableStore γ) (ray : WRay)
    (tr : TRange) (hs : HitStore) (out : List (MaterialHandle × WShadingPoint))
    (primary : Bool) (camera : γ) (hlen : hs.hits.length = store.length) :
    (HitStore.from_hitable_store store).hits.length = store.length ∧
    (∀ lane : Fin 4, (addHitsFold store ray tr).1 lane = USIZE_MAX ∨
      (addHitsFold store ray tr).1 lane < store.length) ∧
    (∃ hs', store.add_hits ray tr hs = some hs') ∧
    (∃ r, hs.process_hits store out primary camera = some r) := by
  refine ⟨List.length_replicate _ _, fun lane => addHitsFold_ids store ray tr lane, ?_, ?_⟩
  · rw [HitableStore.add_hits]
    obtain ⟨hs', hrec, _⟩ := recordLoop_isSome (addHitsFold store ray tr).1 ray
      (addHitsFold store ray tr).2 (List.finRange 4) hs (by
        intro lane
        rcases addHitsFold_ids store ray tr lane with h | h
        · exact Or.inr h
        · exact Or.inl (hlen ▸ h))
    exact ⟨hs', hrec⟩
  · exact ⟨_, process_hits_eq hs store out primary camera (le_of_eq hlen)⟩

/-- A concrete instance of `unchecked_accesses_in_bounds`: one object, an
empty staging store. -/
theorem unchecked_accesses_in_bounds_witness :
    (HitStore.from_hitable_store [missObj]).hits.length = [missObj].length ∧
    (∀ lane : Fin 4,
      (addHitsFold [missObj] (fun _ => Ray.new 0 0) ⟨fun _ => 0, fun _ => 10⟩).1 lane =
          USIZE_MAX ∨
        (addHitsFold [missObj] (fun _ => Ray.new 0 0) ⟨fun _ => 0, fun _ => 10⟩).1 lane <
          [missObj].length) ∧
    (∃ hs', HitableStore.add_hits [missObj] (fun _ => Ray.new 0 0)
      ⟨fun _ => 0, fun _ => 10⟩ ⟨[[]]⟩ = some hs') ∧
    (∃ r, HitStore.process_hits ⟨[[]]⟩ [missObj] [] true () = some r) :=
  unchecked_accesses_in_bounds [missObj] (fun _ => Ray.new 0 0) ⟨fun _ => 0, fun _ => 10⟩
    ⟨[[]]⟩ [] true () rfl

/-! ### C6: reset empties the staging lists and yields an empty dispatch -/

lemma flatten_zipWith_nil {γ : Type} (l₁ : HitableStore γ) :
    ∀ l₂ : List (List Hit),
      (List.zipWith (fun (_ : Hitable γ) (_ : List Hit) =>
        ([] : List (MaterialHandle × WShadingPoint))) l₁ l₂).flatten = [] := by
  induction l₁ with
  | nil => intro l₂; simp
  | cons h t ih =>
    intro l₂
    cases l₂ with
    | nil => simp
    | cons l ls => simp [ih ls]

/-- C6: `reset` empties every staging list without changing the number of
lists, and `process_hits` right after `reset` leaves the store's (empty)
lists unchanged and appends nothing to the output buffer. -/
theorem reset_clears {γ : Type} (hitables : HitableStore γ) (s : HitStore)
    (out : List (MaterialHandle × WShadingPoint)) (primary : Bool) (camera : γ)
    (hlen : s.hits.length = hitables.length) :
    s.reset.hits.length = s.hits.length ∧
    (∀ l ∈ s.reset.hits, l = []) ∧
    s.reset.process_hits hitables out primary camera = some (s.reset, out) := by
  refine ⟨List.length_map _ _, ?_, ?_⟩
  · intro l hl
    rcases List.mem_map.mp hl with ⟨_, _, rfl⟩
    rfl
  · rw [process_hits_eq _ _ _ _ _ (by
      rw [HitStore.reset, List.length_map, hlen])]
    rw [HitStore.reset]
    simp only [List.map_map, List.zipWith_map_right]
    have hpad : (padHits ∘ fun _ : List Hit => ([] : List Hit)) = fun _ => ([] : List Hit) := by
      funext _
      exact padHits_nil
    rw [hpad]
    have hshade : (fun (h : Hitable γ) (l : List Hit) =>
        shadeList h primary camera (padHits ((fun _ : List Hit => ([] : List Hit)) l))) =
        fun _ _ => ([] : List (MaterialHandle × WShadingPoint)) := by
      funext h l
      rw [padHits_nil]
      rfl
    rw [hshade, flatten_zipWith_nil, List.append_nil]

/-- A concrete instance of `reset_clears`: a store holding one staged hit
is emptied and dispatches nothing. -/
theorem reset_clears_witness :
    (HitStore.mk [[{ ray := Ray.new 0 0, t := 2 }]]).reset.hits.length =
        (HitStore.mk [[{ ray := Ray.new 0 0, t := 2 }]]).hits.length ∧
    (∀ l ∈ (HitStore.mk [[{ ray := Ray.new 0 0, t := 2 }]]).reset.hits, l = []) ∧
    (HitStore.mk [[{ ray := Ray.new 0 0, t := 2 }]]).reset.process_hits [missObj] [] true () =
      some ((HitStore.mk [[{ ray := Ray.new 0 0, t := 2 }]]).reset, []) :=
  reset_clears [missObj] ⟨[[{ ray := Ray.new 0 0, t := 2 }]]⟩ [] true () rfl

/-! ### C9: the padding persists and a second pass re-dispatches everything -/

lemma getD_map_padHits (ls : List (List Hit)) (i : ℕ) :
    (ls.map padHits).getD i [] = padHits (ls.getD i []) := by
  rcases Nat.lt_or_ge i ls.length with h | h
  · rw [getD_of_lt _ _ (by simpa using h), getD_of_lt _ _ h]
    simp [List.get_eq_getElem]
  · rw [List.getD_eq_default _ _ (by simpa using h), List.getD_eq_default _ _ h, padHits_nil]

/-- C9: `process_hits` does not restore the staging lists it reads: the
returned store's lists are the padded lists (each grown to the next
multiple of four of its staged count, the invalid sentinels still in
place), and calling `process_hits` again without `reset` dispatches
exactly the same entries again — the second call appends to `out2`
precisely what the first call appended to `out1`, padding sentinels
included. -/
theorem process_hits_keeps_padding {γ : Type} (hitables : HitableStore γ) (s : HitStore)
    (out1 out2 : List (MaterialHandle × WShadingPoint)) (primary : Bool) (camera : γ)
    (hlen : s.hits.length = hitables.length) :
    ∃ s' o1, s.process_hits hitables out1 primary camera = some (s', o1) ∧
      s'.hits = s.hits.map padHits ∧
      (∀ i : ℕ,
        s'.hits.getD i [] =
          s.hits.getD i [] ++
            List.replicate ((4 - (s.hits.getD i []).length % 4) % 4) invalidHit ∧
        (s'.hits.getD i []).length = 4 * (((s.hits.getD i []).length + 3) / 4)) ∧
      s'.process_hits hitables out2 primary camera = some (s', out2 ++ o1.drop out1.length) := by
  refine ⟨⟨s.hits.map padHits⟩, _,
    process_hits_eq s hitables out1 primary camera (le_of_eq hlen), rfl, ?_, ?_⟩
  · intro i
    rw [getD_map_padHits]
    exact ⟨padHits_eq _, padHits_length _⟩
  · rw [process_hits_eq _ _ _ _ _ (by simpa using le_of_eq hlen)]
    rw [List.drop_left]
    have hmm : (s.hits.map padHits).map padHits = s.hits.map padHits := by
      rw [List.map_map]
      exact List.map_congr_left (fun l _ => padHits_idem l)
    have hzz : List.zipWith (fun h l => shadeList h primary camera (padHits l)) hitables
        (s.hits.map padHits) =
        List.zipWith (fun h l => shadeList h primary camera (padHits l)) hitables s.hits := by
      rw [List.zipWith_map_right]
      have hfun : (fun (h : Hitable γ) (l : List Hit) =>
          shadeList h primary camera (padHits (padHits l))) =
          fun h l => shadeList h primary camera (padHits l) := by
        funext h l
        rw [padHits_idem]
      rw [hfun]
    rw [hmm, hzz]

/-- A concrete instance of `process_hits_keeps_padding`: one object, one
staged hit. -/
theorem process_hits_keeps_padding_witness :
    ∃ s' o1, HitStore.process_hits ⟨[[{ ray := Ray.new 0 0, t := 2 }]]⟩ [missObj] [] true () =
        some (s', o1) ∧
      s'.hits = [[{ ray := Ray.new 0 0, t := 2 }]].map padHits ∧
      (∀ i : ℕ,
        s'.hits.getD i [] =
          ([[{ ray := Ray.new 0 0, t := 2 }]] : List (List Hit)).getD i [] ++
            List.replicate
              ((4 - (([[{ ray := Ray.new 0 0, t := 2 }]] : List (List Hit)).getD i
                []).length % 4) % 4) invalidHit ∧
        (s'.hits.getD i []).length =
          4 * ((((
            [[{ ray := Ray.new 0 0, t := 2 }]] : List (List Hit)).getD i []).length + 3) / 4)) ∧
      s'.process_hits [missObj] [] true () = some (s', [] ++ o1.drop ([] : List
        (MaterialHandle × WShadingPoint)).length) :=
  process_hits_keeps_padding [missObj] ⟨[[{ ray := Ray.new 0 0, t := 2 }]]⟩ [] [] true () rfl

/-! ### C10: every dispatched group keeps at least one valid lane -/

lemma chunks4_pad_exists_valid :
    ∀ (l : List Hit) (k : ℕ), k < 4 → (l.length + k) % 4 = 0 →
      (∀ h ∈ l, h.ray.valid = true) →
      ∀ c ∈ chunks4 (l ++ List.replicate k invalidHit),
        ∃ lane : Fin 4, (c lane).ray.valid = true
  | [], k, hk, hmod, hl => by
    have hz : k = 0 := by
      simp only [List.length_nil, Nat.zero_add] at hmod
      omega
    subst hz
    intro c hc
    simp [chunks4] at hc
  | [a], k, hk, hmod, hl => by
    have hk3 : k = 3 := by
      simp only [List.length_cons, List.length_nil] at hmod
      omega
    subst hk3
    intro c hc
    have he : chunks4 ([a] ++ List.replicate 3 invalidHit) =
        [![a, invalidHit, invalidHit, invalidHit]] := rfl
    rw [he, List.mem_singleton] at hc
    subst hc
    exact ⟨0, hl a (List.mem_singleton.mpr rfl)⟩
  | [a, b], k, hk, hmod, hl => by
    have hk2 : k = 2 := by
      simp only [List.length_cons, List.length_nil] at hmod
      omega
    subst hk2
    intro c hc
    have he : chunks4 ([a, b] ++ List.replicate 2 invalidHit) =
        [![a, b, invalidHit, invalidHit]] := rfl
    rw [he, List.mem_singleton] at hc
    subst hc
    exact ⟨0, hl a (by simp)⟩
  | [a, b, c0], k, hk, hmod, hl => by
    have hk1 : k = 1 := by
      simp only [List.length_cons, List.length_nil] at hmod
      omega
    subst hk1
    intro c hc
    have he : chunks4 ([a, b, c0] ++ List.replicate 1 invalidHit) =
        [![a, b, c0, invalidHit]] := rfl
    rw [he, List.mem_singleton] at hc
    subst hc
    exact ⟨0, hl a (by simp)⟩
  | a :: b :: c0 :: d :: rest, k, hk, hmod, hl => by
    intro ch hch
    have hre : (a :: b :: c0 :: d :: rest) ++ List.replicate k invalidHit =
        a :: b :: c0 :: d :: (rest ++ List.replicate k invalidHit) := rfl
    rw [hre] at hch
    rw [show chunks4 (a :: b :: c0 :: d :: (rest ++ List.replicate k invalidHit)) =
      ![a, b, c0, d] :: chunks4 (rest ++ List.replicate k invalidHit) from rfl] at hch
    rcases List.mem_cons.mp hch with rfl | hch
    · exact ⟨0, hl a (by simp)⟩
    · exact chunks4_pad_exists_valid rest k hk
        (by simp only [List.length_cons] at hmod ⊢; omega)
        (fun h hm => hl h (by simp [hm])) ch hch

lemma validStore_getD (s : HitStore) (hv : validStore s) (i : ℕ) :
    ∀ h ∈ s.hits.getD i [], h.ray.valid = true := by
  intro h hm
  rcases Nat.lt_or_ge i s.hits.length with hi | hi
  · rw [getD_of_lt _ _ hi] at hm
    exact hv _ (List.get_mem _ _ hi) h hm
  · rw [List.getD_eq_default _ _ hi] at hm
    simp at hm

/-- C10: a fresh `HitStore` and a `reset` store stage only valid-ray hits,
`add_hits` preserves that invariant, and on any store satisfying it every
group of four that `process_hits` builds from a padded staging list — the
`WHit`s handed to `get_shading_info` — has at least one lane whose ray is
valid (padding adds at most three invalid sentinels, all at the tail). -/
theorem process_hits_groups_have_valid_lane {γ : Type} (store : HitableStore γ)
    (ray : WRay) (tr : TRange) (hs hs' : HitStore) :
    validStore (HitStore.from_hitable_store store) ∧
    (∀ s : HitStore, validStore s.reset) ∧
    (store.add_hits ray tr hs = some hs' → validStore hs → validStore hs') ∧
    (validStore hs → ∀ l ∈ hs.hits,
      (4 - l.length % 4) % 4 ≤ 3 ∧
      ∀ c ∈ chunks4 (padHits l), ∃ lane : Fin 4, ((WHit.from c).ray lane).valid = true) := by
  refine ⟨?_, ?_, ?_, ?_⟩
  · intro l hl h hm
    rw [List.eq_of_mem_replicate hl] at hm
    simp at hm
  · intro s l hl h hm
    rcases List.mem_map.mp hl with ⟨_, _, rfl⟩
    simp at hm
  · intro hadd hv
    intro l hl h hm
    have hidx := List.mem_iff_get.mp hl
    rcases hidx with ⟨i, rfl⟩
    have hmem : h ∈ hs'.hits.getD i [] := by
      rw [getD_of_lt _ _ i.isLt]
      exact hm
    rw [HitableStore.add_hits] at hadd
    rcases recordLoop_mem _ _ _ _ _ _ hadd i h hmem with hold | ⟨lane, heq, hval⟩
    · exact validStore_getD hs hv i h hold
    · rw [heq]
      exact hval
  · intro hv l hl
    refine ⟨by omega, ?_⟩
    intro c hc
    rw [padHits_eq] at hc
    exact chunks4_pad_exists_valid l _ (by omega) (by omega) (fun h hm => hv l hl h hm) c hc

/-- A concrete instance of `process_hits_groups_have_valid_lane`: one
object, one valid staged hit. -/
theorem process_hits_groups_have_valid_lane_witness :
    validStore (HitStore.from_hitable_store [missObj]) ∧
    (∀ s : HitStore, validStore s.reset) ∧
    (HitableStore.add_hits [missObj] (fun _ => Ray.new 0 0) ⟨fun _ => 0, fun _ => 10⟩
        ⟨[[{ ray := Ray.new 0 0, t := 3 }]]⟩ = some ⟨[[{ ray := Ray.new 0 0, t := 3 }]]⟩ →
      validStore ⟨[[{ ray := Ray.new 0 0, t := 3 }]]⟩ →
      validStore ⟨[[{ ray := Ray.new 0 0, t := 3 }]]⟩) ∧
    (validStore ⟨[[{ ray := Ray.new 0 0, t := 3 }]]⟩ →
      ∀ l ∈ (HitStore.mk [[{ ray := Ray.new 0 0, t := 3 }]]).hits,
        (4 - l.length % 4) % 4 ≤ 3 ∧
        ∀ c ∈ chunks4 (padHits l),
          ∃ lane : Fin 4, ((WHit.from c).ray lane).valid = true) :=
  process_hits_groups_have_valid_lane [missObj] (fun _ => Ray.new 0 0)
    ⟨fun _ => 0, fun _ => 10⟩ ⟨[[{ ray := Ray.new 0 0, t := 3 }]]⟩
    ⟨[[{ ray := Ray.new 0 0, t := 3 }]]⟩

/-! ### C8: secondary-ray origin offset in `create_rays` -/

lemma wec3_add_apply (a b : Wec3) (lane : Fin 4) : (a + b) lane = a lane + b lane := rfl

lemma wec3_mul_apply (v : Wec3) (s : f32x4) (lane : Fin 4) :
    (v * s) lane = (v lane).smul (s lane) := rfl

lemma v3_add_z (a b : V3 ℚ) : (a + b).z = a.z + b.z := rfl

/-- C8 counterexample: for a direction tangent to the stored normal
(`normal · dir = 0`), the created ray's origin is not the stored point
offset by `sign(normal · dir) = 0` times the offset distance (which would
leave it on the surface): the code offsets by `+1` times the offset
distance instead, because `f32::signum` maps zero to one. -/
theorem create_rays_sign_counterexample :
    ¬ (((spC.create_rays dirC) 0).dir = dirC 0 ∧
      ((spC.create_rays dirC) 0).origin =
        spC.point 0 + (spC.normal 0).smul
          (claimSign ((spC.normal 0).dot (dirC 0)) * spC.offset_by 0)) := by
  rintro ⟨-, h2⟩
  have hz := congrArg V3.z h2
  simp only [WShadingPoint.create_rays, wec3_add_apply, wec3_mul_apply, v3_add_z, spC,
    dirC, claimSign, f32x4.signum, Wec3.dot, V3.dot, V3.smul] at hz
  norm_num at hz

/-- C8 (amended): `create_rays` returns a ray whose direction is the given
direction and whose origin is the stored point offset along the stored
normal by the stored offset distance, the offset signed by `+1` when
`normal · direction` is non-negative and `-1` when it is negative — equal
to `sign(normal · direction)` whenever that dot product is nonzero. -/
theorem create_rays_offset (sp : WShadingPoint) (dir : Wec3) (lane : Fin 4) :
    ((sp.create_rays dir) lane).dir = dir lane ∧
    ((sp.create_rays dir) lane).origin =
      sp.point lane +
        ((sp.normal lane).smul ((sp.normal.dot dir).signum lane)).smul
          (sp.offset_by lane) ∧
    (sp.normal.dot dir).signum lane =
      (if (sp.normal lane).dot (dir lane) < 0 then -1 else 1) ∧
    ((sp.normal lane).dot (dir lane) ≠ 0 →
      (sp.normal.dot dir).signum lane = claimSign ((sp.normal lane).dot (dir lane))) := by
  refine ⟨rfl, rfl, rfl, ?_⟩
  intro hne
  simp only [f32x4.signum, claimSign, Wec3.dot]
  rcases lt_trichotomy ((sp.normal lane).dot (dir lane)) 0 with hlt | heq | hgt
  · rw [if_pos hlt, if_pos hlt]
  · exact absurd heq hne
  · rw [if_neg (not_lt.mpr (le_of_lt hgt)), if_neg (not_lt.mpr (le_of_lt hgt)), if_neg hne]

/-- A concrete instance of `create_rays_offset` at `spC`, `dirC`, lane 0. -/
theorem create_rays_offset_witness :
    ((spC.create_rays dirC) 0).dir = dirC 0 ∧
    ((spC.create_rays dirC) 0).origin =
      spC.point 0 +
        ((spC.normal 0).smul ((spC.normal.dot dirC).signum 0)).smul (spC.offset_by 0) ∧
    (spC.normal.dot dirC).signum 0 =
      (if (spC.normal 0).dot (dirC 0) < 0 then -1 else 1) ∧
    ((spC.normal 0).dot (dirC 0) ≠ 0 →
      (spC.normal.dot dirC).signum 0 = claimSign ((spC.normal 0).dot (dirC 0))) :=
  create_rays_offset spC dirC 0

/-! ### C7: thin lens with zero aperture versus the equivalent pinhole -/

lemma v3_add_x' [Add α] (a b : V3 α) : (a + b).x = a.x + b.x := rfl

lemma v3_add_y' [Add α] (a b : V3 α) : (a + b).y = a.y + b.y := rfl

lemma v3_add_z' [Add α] (a b : V3 α) : (a + b).z = a.z + b.z := rfl

lemma v3_sub_x' [Sub α] (a b : V3 α) : (a - b).x = a.x - b.x := rfl

lemma v3_sub_y' [Sub α] (a b : V3 α) : (a - b).y = a.y - b.y := rfl

lemma v3_sub_z' [Sub α] (a b : V3 α) : (a - b).z = a.z - b.z := rfl

lemma v3_zero_x [Zero α] : (0 : V3 α).x = 0 := rfl

lemma v3_zero_y [Zero α] : (0 : V3 α).y = 0 := rfl

lemma v3_zero_z [Zero α] : (0 : V3 α).z = 0 := rfl

lemma dot_self_nonneg (v : V3 ℝ) : 0 ≤ v.dot v := by
  have hd : v.dot v = v.x ^ 2 + v.y ^ 2 + v.z ^ 2 := by
    rw [V3.dot]
    ring
  rw [hd]
  positivity

lemma dot_self_pos (v : V3 ℝ) (h : v ≠ 0) : 0 < v.dot v := by
  rcases lt_or_eq_of_le (dot_self_nonneg v) with hlt | heq
  · exact hlt
  · exfalso
    apply h
    rw [V3.dot] at heq
    have hx : v.x = 0 := by nlinarith [sq_nonneg v.x, sq_nonneg v.y, sq_nonneg v.z]
    have hy : v.y = 0 := by nlinarith [sq_nonneg v.x, sq_nonneg v.y, sq_nonneg v.z]
    have hz : v.z = 0 := by nlinarith [sq_nonneg v.x, sq_nonneg v.y, sq_nonneg v.z]
    ext
    · exact hx
    · exact hy
    · exact hz

lemma magnitude_pos (v : V3 ℝ) (h : v ≠ 0) : 0 < magnitude v :=
  Real.sqrt_pos.mpr (dot_self_pos v h)

lemma dot_smul_left (a : V3 ℝ) (s : ℝ) (b : V3 ℝ) : (a.smul s).dot b = s * a.dot b := by
  simp only [V3.smul, V3.dot]
  ring

lemma dot_smul_right (a : V3 ℝ) (s : ℝ) (b : V3 ℝ) : b.dot (a.smul s) = s * b.dot a := by
  simp only [V3.smul, V3.dot]
  ring

lemma dot_normalized (v : V3 ℝ) (h : v ≠ 0) : (normalized v).dot (normalized v) = 1 := by
  have hd := dot_self_pos v h
  have hs : Real.sqrt (v.dot v) ≠ 0 := ne_of_gt (Real.sqrt_pos.mpr hd)
  rw [normalized, dot_smul_left, dot_smul_right, magnitude, one_div]
  field_simp

lemma cross_dot_left (a b : V3 ℝ) : (a.cross b).dot a = 0 := by
  simp only [V3.cross, V3.dot]
  ring

lemma cross_dot_right (a b : V3 ℝ) : (a.cross b).dot b = 0 := by
  simp only [V3.cross, V3.dot]
  ring

lemma cross_dot_self (a b : V3 ℝ) :
    (a.cross b).dot (a.cross b) = a.dot a * b.dot b - a.dot b * a.dot b := by
  simp only [V3.cross, V3.dot]
  ring

lemma dot_comm' (a b : V3 ℝ) : a.dot b = b.dot a := by
  simp only [V3.dot]
  ring

lemma basisMap_smul (u v w q : V3 ℝ) (s : ℝ) :
    basisMap u v w (q.smul s) = (basisMap u v w q).smul s := by
  ext <;>
    simp only [basisMap, V3.smul, v3_add_x', v3_add_y', v3_add_z'] <;>
    ring

lemma dot_basisMap_self (u v w q : V3 ℝ) :
    (basisMap u v w q).dot (basisMap u v w q) =
      q.x * q.x * u.dot u + q.y * q.y * v.dot v + q.z * q.z * w.dot w +
        2 * (q.x * q.y) * u.dot v + 2 * (q.x * q.z) * u.dot w +
        2 * (q.y * q.z) * v.dot w := by
  simp only [basisMap, V3.smul, V3.dot, v3_add_x', v3_add_y', v3_add_z']
  ring

lemma magnitude_basisMap (u v w : V3 ℝ) (huu : u.dot u = 1) (hvv : v.dot v = 1)
    (hww : w.dot w = 1) (huv : u.dot v = 0) (huw : u.dot w = 0) (hvw : v.dot w = 0)
    (q : V3 ℝ) : magnitude (basisMap u v w q) = magnitude q := by
  rw [magnitude, magnitude, dot_basisMap_self, huu, hvv, hww, huv, huw, hvw]
  ring_nf
  congr 1
  rw [V3.dot]
  ring

lemma normalized_basisMap (u v w : V3 ℝ) (huu : u.dot u = 1) (hvv : v.dot v = 1)
    (hww : w.dot w = 1) (huv : u.dot v = 0) (huw : u.dot w = 0) (hvw : v.dot w = 0)
    (q : V3 ℝ) : normalized (basisMap u v w q) = basisMap u v w (normalized q) := by
  rw [normalized, normalized, magnitude_basisMap u v w huu hvv hww huv huw hvw,
    basisMap_smul]

lemma magnitude_smul (v : V3 ℝ) (s : ℝ) (hs : 0 ≤ s) :
    magnitude (v.smul s) = s * magnitude v := by
  have hd : (v.smul s).dot (v.smul s) = s ^ 2 * v.dot v := by
    simp only [V3.smul, V3.dot]
    ring
  rw [magnitude, hd, Real.sqrt_mul (sq_nonneg s), Real.sqrt_sq hs, magnitude]

lemma normalized_smul (v : V3 ℝ) (s : ℝ) (hs : 0 < s) :
    normalized (v.smul s) = normalized v := by
  rw [normalized, normalized, magnitude_smul v s (le_of_lt hs)]
  have hss : s * s⁻¹ = 1 := mul_inv_cancel₀ (ne_of_gt hs)
  ext <;>
    · simp only [V3.smul, one_div, mul_inv]
      calc _ * s * (s⁻¹ * (magnitude v)⁻¹) = _ * (s * s⁻¹) * (magnitude v)⁻¹ := by ring
        _ = _ := by rw [hss, mul_one]

/-- C7: when the thin-lens camera's aperture sequence samples to exactly
zero, `ThinLensCamera::get_ray` produces the same ray — same origin and
same direction — as `PinholeCamera::get_ray` for the pinhole camera with
the same position and view basis and the equivalent field of view (the
thin lens's half extents equal the pinhole's fixed `(aspect/2, 1/2)`
image-plane half extents), for the same `uv` and time; the look-at,
up-vector and focus configurations are nondegenerate. -/
theorem thin_lens_pinhole_equiv (c : ThinLensCamera) (aspect : ℝ) (uv : V2 ℝ) (time : ℝ)
    (disk_sample : V2 ℝ)
    (hap : c.aperture time = 0)
    (hhs : c.half_size = ⟨aspect * 0.5, 0.5⟩)
    (hoa : c.origin time - c.look_at time ≠ 0)
    (hup : (c.up time).cross (normalized (c.origin time - c.look_at time)) ≠ 0)
    (hfo : c.focus time - c.origin time ≠ 0) :
    c.get_ray uv time disk_sample = (equivalentPinhole c aspect).get_ray uv time := by
  simp only [ThinLensCamera.get_ray, equivalentPinhole, PinholeCamera.get_ray,
    PinholeCamera.new, screenPoint, viewBasis]
  rw [hap, hhs]
  set o := c.origin time with ho
  set w := normalized (c.origin time - c.look_at time) with hw
  set u := normalized ((c.up time).cross w) with hu
  set v := w.cross u with hv
  set fd := magnitude (c.focus time - c.origin time) with hfd
  have hfdpos : 0 < fd := by
    rw [hfd]
    exact magnitude_pos _ hfo
  have hww : w.dot w = 1 := by
    rw [hw]
    exact dot_normalized _ hoa
  have huu : u.dot u = 1 := by
    rw [hu]
    exact dot_normalized _ hup
  have huw : u.dot w = 0 := by
    rw [hu, normalized, dot_smul_left, cross_dot_right, mul_zero]
  have hvw : v.dot w = 0 := by
    rw [hv]
    exact cross_dot_left w u
  have huv : u.dot v = 0 := by
    rw [dot_comm', hv]
    exact cross_dot_right w u
  have hvv : v.dot v = 1 := by
    rw [hv, cross_dot_self, hww, huu, dot_comm' w u, huw]
    ring
  congr 1
  · ext <;> simp [V3.smul, v3_add_x', v3_add_y', v3_add_z']
  · rw [← normalized_basisMap u v w huu hvv hww huv huw hvw,
      ← normalized_smul (basisMap u v w
        ⟨-aspect * 0.5 + aspect * uv.x, -0.5 + 1 * uv.y, -1⟩) fd hfdpos]
    refine congrArg normalized ?_
    ext <;>
      simp only [basisMap, V3.smul, V3.dot, v3_add_x', v3_add_y', v3_add_z', v3_sub_x',
        v3_sub_y', v3_sub_z'] <;>
      ring

/-- A concrete instance of `thin_lens_pinhole_equiv` at `camW`. -/
theorem thin_lens_pinhole_equiv_witness :
    camW.get_ray ⟨0, 0⟩ 0 ⟨0, 0⟩ = (equivalentPinhole camW 1).get_ray ⟨0, 0⟩ 0 :=
  thin_lens_pinhole_equiv camW 1 ⟨0, 0⟩ 0 ⟨0, 0⟩ rfl rfl
    (by
      intro h
      have hz := congrArg V3.z h
      simp only [camW, v3_sub_z', v3_zero_z] at hz
      norm_num at hz)
    (by
      intro h
      have hx := congrArg V3.x h
      simp only [camW, V3.cross, normalized, magnitude, V3.dot, V3.smul, v3_sub_x',
        v3_sub_y', v3_sub_z', v3_zero_x, v3_zero_y, v3_zero_z] at hx
      norm_num [Real.sqrt_one] at hx)
    (by
      intro h
      have hz := congrArg V3.z h
      simp only [camW, v3_sub_z', v3_zero_z] at hz
      norm_num at hz)
